import Mathlib

set_option maxHeartbeats 1000000

/-!
Verification of the column-layout library (anycol / pycoli).

Python strings are modelled as lists of characters (`Str`); machine integers
are `Nat`/`Int`; Python errors (`ZeroDivisionError`, `ValueError`) are
modelled with `Option`/`Except`.
-/

/-- Python `str` is modelled as a list of characters. -/
abbrev Str := List Char

/-- The characters of a Lean string literal, used for concrete inputs. -/
def strOf (s : String) : Str := s.data

/-- `n` space characters. -/
def spaces (n : Nat) : Str := List.replicate n ' '

/-- The ASCII whitespace characters stripped by Python `str.rstrip()`. -/
def isPySpace (c : Char) : Bool :=
  c == ' ' || c == '\t' || c == '\n' || c == '\r' || c == '\x0b' || c == '\x0c'

/-- Models Python `str.rstrip()`: remove trailing whitespace. -/
def rstrip (s : Str) : Str := (s.reverse.dropWhile isPySpace).reverse

/-- Models Python `sep.join(parts)`. -/
def joinStr (sep : Str) : List Str → Str
  | [] => []
  | [p] => p
  | p :: q :: rest => p ++ sep ++ joinStr sep (q :: rest)

/-- Element `i` of a list, or `fill` past the end (the access pattern of
`itertools.zip_longest`). -/
def getAt (l : List α) (i : Nat) (fill : α) : α :=
  match l, i with
  | [], _ => fill
  | x :: _, 0 => x
  | _ :: xs, j + 1 => getAt xs j fill

/-- Models Python `max(l, default=0)` on naturals. -/
def maxNat (l : List Nat) : Nat := l.foldr max 0

/-- Models `max(map(len, strings), default=0)`. -/
def maxLen (l : List Str) : Nat := maxNat (l.map List.length)

/-- Models `itertools.zip_longest(*ls, fillvalue=fill)`: one row per index up
to the longest list, shorter lists padded with `fill`. -/
def zipLongest (ls : List (List α)) (fill : α) : List (List α) :=
  (List.range (maxNat (ls.map List.length))).map (fun i => ls.map (fun l => getAt l i fill))

/-- Models Python `math.ceil(n / m)` for naturals (`m > 0` at every call site). -/
def ceilDiv (n m : Nat) : Nat := (n + m - 1) / m

/-- Models `more_itertools.sliced(xs, n)`: successive chunks `xs[0:n]`,
`xs[n:2n]`, …  For `n = 0` the Python generator stops at once (its first
slice is empty), yielding nothing. -/
def sliced (xs : List α) (n : Nat) : List (List α) :=
  if n = 0 then []
  else
    match xs with
    | [] => []
    | x :: rest => (x :: rest).take n :: sliced ((x :: rest).drop n) n
termination_by xs.length
decreasing_by
  simp only [List.length_drop, List.length_cons]
  omega

theorem sliced_nil (n : Nat) : sliced ([] : List α) n = [] := by
  rw [sliced.eq_def]
  split <;> rfl

theorem sliced_zero (xs : List α) : sliced xs 0 = [] := by
  rw [sliced.eq_def]
  rfl

theorem sliced_cons_eq (xs : List α) (n : Nat) (hn : n ≠ 0) (hxs : xs ≠ []) :
    sliced xs n = xs.take n :: sliced (xs.drop n) n := by
  match xs with
  | [] => exact absurd rfl hxs
  | x :: rest =>
    rw [sliced.eq_def]
    simp [hn]

theorem length_dropWhile_le (p : α → Bool) (l : List α) :
    (l.dropWhile p).length ≤ l.length := by
  induction l with
  | nil => simp
  | cons x xs ih =>
    rw [List.dropWhile_cons]
    split
    · exact le_trans ih (Nat.le_succ _)
    · exact le_refl _

theorem rstrip_length_le (s : Str) : (rstrip s).length ≤ s.length := by
  unfold rstrip
  rw [List.length_reverse]
  calc (s.reverse.dropWhile isPySpace).length ≤ s.reverse.length :=
        length_dropWhile_le _ _
    _ = s.length := List.length_reverse s

theorem ceilDiv_le_iff {n m k : Nat} (hm : 0 < m) : ceilDiv n m ≤ k ↔ n ≤ k * m := by
  unfold ceilDiv
  rw [← Nat.lt_succ_iff, Nat.div_lt_iff_lt_mul hm, Nat.succ_mul]
  generalize k * m = K
  omega

theorem le_mul_ceilDiv (n : Nat) {m : Nat} (hm : 0 < m) : n ≤ ceilDiv n m * m :=
  (ceilDiv_le_iff hm).mp (le_refl _)

theorem ceilDiv_pos {n m : Nat} (hm : 0 < m) (hn : 0 < n) : 0 < ceilDiv n m := by
  by_contra hc
  have h0 : ceilDiv n m ≤ 0 := by omega
  have := (ceilDiv_le_iff hm).mp h0
  omega

theorem ceilDiv_by_one (n : Nat) : ceilDiv n 1 = n := by
  unfold ceilDiv
  simp

theorem ceilDiv_zero_left {n : Nat} (hn : 0 < n) : ceilDiv 0 n = 0 := by
  unfold ceilDiv
  exact Nat.div_eq_of_lt (by omega)

theorem ceilDiv_succ_step {len n : Nat} (hn : 0 < n) (hlen : 0 < len) :
    ceilDiv len n = ceilDiv (len - n) n + 1 := by
  by_cases hle : len ≤ n
  · have h1 : ceilDiv len n ≤ 1 := (ceilDiv_le_iff hn).mpr (by omega)
    have h2 : 0 < ceilDiv len n := ceilDiv_pos hn hlen
    have h3 : len - n = 0 := by omega
    rw [h3, ceilDiv_zero_left hn]
    omega
  · have heq : len + n - 1 = ((len - n) + n - 1) + n := by omega
    unfold ceilDiv
    rw [heq, Nat.add_div_right _ hn]

theorem sliced_flatten (xs : List α) (n : Nat) (hn : 0 < n) : (sliced xs n).flatten = xs := by
  revert hn
  induction xs, n using sliced.induct with
  | case1 xs => intro hn; omega
  | case2 n h => intro _; rw [sliced_nil]; rfl
  | case3 n h x rest ih =>
    intro hn
    rw [sliced_cons_eq _ _ h (by simp), List.flatten_cons, ih hn]
    exact List.take_append_drop _ _

theorem sliced_length (xs : List α) (n : Nat) (hn : 0 < n) :
    (sliced xs n).length = ceilDiv xs.length n := by
  revert hn
  induction xs, n using sliced.induct with
  | case1 xs => intro hn; omega
  | case2 n h =>
    intro hn
    rw [sliced_nil]
    simp [ceilDiv_zero_left hn]
  | case3 n h x rest ih =>
    intro hn
    rw [sliced_cons_eq _ _ h (by simp), List.length_cons, ih hn, List.length_drop]
    rw [ceilDiv_succ_step hn (show (0:Nat) < (x :: rest).length by simp)]

theorem sliced_ne_nil (xs : List α) (n : Nat) (hn : 0 < n) (hxs : xs ≠ []) :
    sliced xs n ≠ [] := by
  rw [sliced_cons_eq _ _ (by omega) hxs]
  simp

theorem sliced_eq_singleton (xs : List α) (n : Nat) (hn : 0 < n) {c : List α}
    (h : sliced xs n = [c]) : c = xs := by
  have := sliced_flatten xs n hn
  rw [h] at this
  simpa using this

theorem sliced_chunk_le (xs : List α) (n : Nat) :
    ∀ c ∈ sliced xs n, c.length ≤ n := by
  induction xs, n using sliced.induct with
  | case1 xs => rw [sliced_zero]; simp
  | case2 n h => rw [sliced_nil]; simp
  | case3 n h x rest ih =>
    rw [sliced_cons_eq _ _ h (by simp)]
    intro c hc
    rcases List.mem_cons.mp hc with h1 | h2
    · rw [h1]; exact List.length_take_le _ _
    · exact ih c h2

theorem sliced_dropLast_full (xs : List α) (n : Nat) :
    ∀ c ∈ (sliced xs n).dropLast, c.length = n := by
  induction xs, n using sliced.induct with
  | case1 xs => rw [sliced_zero]; simp
  | case2 n h => rw [sliced_nil]; simp
  | case3 n h x rest ih =>
    rw [sliced_cons_eq _ _ h (by simp)]
    rcases htail : sliced ((x :: rest).drop n) n with _ | ⟨d, ds⟩
    · simp
    · rw [List.dropLast_cons_of_ne_nil (by simp)]
      intro c hc
      rcases List.mem_cons.mp hc with h1 | h2
      · have hne : (x :: rest).drop n ≠ [] := by
          intro hd
          rw [hd, sliced_nil] at htail
          exact List.noConfusion htail
        have : n < (x :: rest).length := by
          by_contra hge
          exact hne (List.drop_eq_nil_of_le (by omega))
        rw [h1, List.length_take]
        omega
      · rw [← htail] at h2
        exact ih c h2

theorem joinStr_length (sep : Str) :
    ∀ parts : List Str,
      (joinStr sep parts).length = (parts.map List.length).sum + sep.length * (parts.length - 1)
  | [] => by simp [joinStr]
  | [p] => by simp [joinStr]
  | p :: q :: rest => by
    have ih := joinStr_length sep (q :: rest)
    simp only [joinStr, List.length_append, List.map_cons, List.sum_cons, List.length_cons,
      Nat.add_sub_cancel] at ih ⊢
    rw [ih]
    ring

theorem getAt_mem_or (l : List α) (i : Nat) (d : α) :
    getAt l i d ∈ l ∨ getAt l i d = d := by
  induction l generalizing i with
  | nil => right; rfl
  | cons x xs ih =>
    match i with
    | 0 => left; simp [getAt]
    | j + 1 =>
      rcases ih j with h | h
      · left; rw [getAt]; exact List.mem_cons_of_mem _ h
      · right; rw [getAt]; exact h

theorem le_maxNat_of_mem {l : List Nat} {a : Nat} (h : a ∈ l) : a ≤ maxNat l := by
  induction l with
  | nil => cases h
  | cons x xs ih =>
    rcases List.mem_cons.mp h with h1 | h2
    · rw [h1]; exact le_max_left _ _
    · exact le_trans (ih h2) (le_max_right _ _)

theorem maxNat_mem {l : List Nat} (h : l ≠ []) : maxNat l ∈ l := by
  induction l with
  | nil => exact absurd rfl h
  | cons x xs ih =>
    match xs with
    | [] => simp [maxNat]
    | y :: ys =>
      rcases max_choice x (maxNat (y :: ys)) with h1 | h1
      · have e : maxNat (x :: y :: ys) = x ⊔ maxNat (y :: ys) := rfl
        rw [e, h1]
        exact List.mem_cons_self _ _
      · have e : maxNat (x :: y :: ys) = x ⊔ maxNat (y :: ys) := rfl
        rw [e, h1]
        exact List.mem_cons_of_mem _ (ih (by simp))

theorem le_maxLen_of_mem {l : List Str} {s : Str} (h : s ∈ l) : s.length ≤ maxLen l :=
  le_maxNat_of_mem (List.mem_map_of_mem List.length h)

namespace Anycol

/-! Shallow embedding of `anycol.py`.  Input values are modelled as strings
(`get_columns` applies `str` to every value at entry; `str` is the identity
on strings in this model). -/

/-- Models `anycol.Item`: a string paired with a target display width. -/
structure Item where
  string : Str
  width : Nat
deriving DecidableEq, Repr

/-- Models `Item.__str__`: `self.string[:self.width].ljust(self.width)`. -/
def Item.render (it : Item) : Str :=
  let s := it.string.take it.width
  s ++ spaces (it.width - s.length)

/-- Models `Item.get_wrapped`: one `Item` per chunk of
`sliced(self.string, self.width)`. -/
def Item.get_wrapped (it : Item) : List Item :=
  (sliced it.string it.width).map (fun c => ⟨c, it.width⟩)

/-- Models `anycol.Column`: an ordered group of strings. -/
structure Column where
  strings : List Str
deriving DecidableEq, Repr

/-- Models `Column.get_width`: `max(map(len, self.strings), default=0)`. -/
def Column.get_width (c : Column) : Nat := maxLen c.strings

/-- Models `Column.get_items`: one `Item` per string, at the given width,
defaulting to the column's own width. -/
def Column.get_items (c : Column) (width : Option Nat) : List Item :=
  c.strings.map (fun s => ⟨s, width.getD c.get_width⟩)

/-- The rendered strings produced by iterating a `Column`
(`__iter__` yields `get_items()` and `iter_lines` maps `str` over them). -/
def Column.rendered (c : Column) : List Str :=
  (c.get_items none).map Item.render

/-- Models `ColumnCalculator.build_columns` for calculator state
`(strings, spacing)`.  `none` models the `ZeroDivisionError` raised by
`ceil(len(strings) / 0)` when `num_columns = 0`. -/
def buildColumns (strings : List Str) (numColumns : Nat) : Option (List Column) :=
  if numColumns = 0 then none
  else some ((sliced strings (ceilDiv strings.length numColumns)).map Column.mk)

/-- Models `ColumnCalculator.fits_in_line`.  `columns.length - 1` is
truncated subtraction; every call site passes a non-empty column list. -/
def fitsInLine (spacing : Nat) (columns : List Column) (lineWidth : Nat) : Prop :=
  (columns.map Column.get_width).sum + (columns.length - 1) * spacing + 1 ≤ lineWidth

instance (spacing : Nat) (columns : List Column) (lineWidth : Nat) :
    Decidable (fitsInLine spacing columns lineWidth) := by
  unfold fitsInLine
  exact inferInstance

theorem buildColumns_pos (strings : List Str) (k : Nat) (hk : k ≠ 0) :
    buildColumns strings k =
      some ((sliced strings (ceilDiv strings.length k)).map Column.mk) := by
  unfold buildColumns
  simp [hk]

theorem slicedCeil_length_le (strings : List Str) (k : Nat) (hk : 0 < k) :
    ((sliced strings (ceilDiv strings.length k)).map Column.mk).length ≤ k := by
  rw [List.length_map]
  by_cases hn : strings.length = 0
  · have hsn : strings = [] := List.length_eq_zero.mp hn
    subst hsn
    rw [show ceilDiv (List.length ([] : List Str)) k = 0 from ceilDiv_zero_left hk,
      sliced_zero]
    simp
  · have hm : 0 < ceilDiv strings.length k := ceilDiv_pos hk (by omega)
    rw [sliced_length _ _ hm]
    refine (ceilDiv_le_iff hm).mpr ?_
    rw [Nat.mul_comm]
    exact le_mul_ceilDiv strings.length hk

theorem buildColumns_length_le (strings : List Str) (k : Nat) (hk : 0 < k)
    {cols : List Column} (h : buildColumns strings k = some cols) : cols.length ≤ k := by
  rw [buildColumns_pos strings k (by omega)] at h
  have hc : cols = (sliced strings (ceilDiv strings.length k)).map Column.mk :=
    (Option.some_injective _ h).symm
  rw [hc]
  exact slicedCeil_length_le strings k hk

/-- Models the `while` loop of `ColumnCalculator.get_fitting_columns`:
while more than one column remains and the columns do not fit, rebuild with
one column fewer.  Inside the loop `build_columns` is always called with
`len(columns) - 1 ≥ 1`, so its division cannot fail; that successful branch
(`sliced` then wrapping in `Column`) is inlined here. -/
def fittingGo (strings : List Str) (spacing lineWidth : Nat) (cols : List Column) :
    List Column :=
  if h : 1 < cols.length ∧ ¬ fitsInLine spacing cols lineWidth then
    fittingGo strings spacing lineWidth
      ((sliced strings (ceilDiv strings.length (cols.length - 1))).map Column.mk)
  else cols
termination_by cols.length
decreasing_by
  have hk : 0 < cols.length - 1 := by omega
  have := slicedCeil_length_le strings (cols.length - 1) hk
  omega

/-- Models `ColumnCalculator.get_fitting_columns`. -/
def getFittingColumns (strings : List Str) (spacing lineWidth : Nat) :
    Option (List Column) :=
  match buildColumns strings (min lineWidth strings.length) with
  | none => none
  | some cols => some (fittingGo strings spacing lineWidth cols)

/-- Models `get_columns` for non-mapping (plain sequence) input. -/
def getColumns (values : List Str) (spacing lineWidth : Nat) : Option (List Column) :=
  getFittingColumns values spacing lineWidth

/-- Models `get_mapping_columns`: a column of the keys and a column of the
values, in key iteration order; `spacing` and `lineWidth` are accepted but
never read by the source. -/
def getMappingColumns (mapping : List (Str × Str)) (spacing lineWidth : Nat) :
    List Column :=
  [Column.mk (mapping.map Prod.fst), Column.mk (mapping.map Prod.snd)]

/-- Models `iter_lines` without the final `rstrip`: zip the columns row-wise
(filling with the empty string), render each cell, join with the spacer. -/
def iterLinesRaw (columns : List Column) (spacer : Str) : List Str :=
  (zipLongest (columns.map Column.rendered) []).map (fun row => joinStr spacer row)

/-- Models `iter_lines`. -/
def iterLines (columns : List Column) (spacer : Str) : List Str :=
  (zipLongest (columns.map Column.rendered) []).map
    (fun row => rstrip (joinStr spacer row))

end Anycol

namespace Anycol

theorem sliced_inv_self (strings : List Str) (k : Nat) (hk : 0 < k) :
    ∃ m, 0 < m ∧
      ((sliced strings (ceilDiv strings.length k)).map Column.mk : List Column)
        = (sliced strings m).map Column.mk := by
  by_cases hn : strings = []
  · refine ⟨1, Nat.one_pos, ?_⟩
    subst hn
    rw [sliced_nil, sliced_nil]
  · exact ⟨ceilDiv strings.length k, ceilDiv_pos hk (List.length_pos.mpr hn), rfl⟩

theorem buildColumns_inv (strings : List Str) (k : Nat) (hk : 0 < k)
    {cols : List Column} (h : buildColumns strings k = some cols) :
    ∃ m, 0 < m ∧ cols = (sliced strings m).map Column.mk := by
  rw [buildColumns_pos strings k (by omega)] at h
  have hc : cols = (sliced strings (ceilDiv strings.length k)).map Column.mk :=
    (Option.some_injective _ h).symm
  rcases sliced_inv_self strings k hk with ⟨m, hm, he⟩
  exact ⟨m, hm, hc.trans he⟩

theorem fittingGo_step {strings : List Str} {spacing lineWidth : Nat}
    {cols : List Column}
    (h : 1 < cols.length ∧ ¬ fitsInLine spacing cols lineWidth) :
    fittingGo strings spacing lineWidth cols =
      fittingGo strings spacing lineWidth
        ((sliced strings (ceilDiv strings.length (cols.length - 1))).map Column.mk) := by
  rw [fittingGo.eq_def, dif_pos h]

theorem fittingGo_exit {strings : List Str} {spacing lineWidth : Nat}
    {cols : List Column}
    (h : ¬ (1 < cols.length ∧ ¬ fitsInLine spacing cols lineWidth)) :
    fittingGo strings spacing lineWidth cols = cols := by
  rw [fittingGo.eq_def, dif_neg h]

theorem fittingGo_spec (strings : List Str) (spacing lineWidth : Nat)
    (cols : List Column)
    (hinv : ∃ m, 0 < m ∧ cols = (sliced strings m).map Column.mk) :
    (∃ m, 0 < m ∧
        fittingGo strings spacing lineWidth cols = (sliced strings m).map Column.mk) ∧
      (fitsInLine spacing (fittingGo strings spacing lineWidth cols) lineWidth ∨
        (fittingGo strings spacing lineWidth cols).length ≤ 1) := by
  revert hinv
  induction cols using fittingGo.induct strings spacing lineWidth with
  | case1 x h ih =>
    intro _
    rw [fittingGo_step h]
    exact ih (sliced_inv_self strings (x.length - 1) (by omega))
  | case2 x hneg =>
    intro hinv
    rw [fittingGo_exit hneg]
    refine ⟨hinv, ?_⟩
    by_cases hfit : fitsInLine spacing x lineWidth
    · exact Or.inl hfit
    · right
      by_contra hlen
      exact hneg ⟨by omega, hfit⟩

theorem getFittingColumns_exists (strings : List Str) (spacing lineWidth : Nat)
    (hne : strings ≠ []) (hw : 0 < lineWidth) :
    ∃ r, getFittingColumns strings spacing lineWidth = some r := by
  have hlp : 0 < strings.length := List.length_pos.mpr hne
  have hmin : min lineWidth strings.length ≠ 0 := by omega
  unfold getFittingColumns
  rw [buildColumns_pos strings _ hmin]
  exact ⟨_, rfl⟩

theorem getFittingColumns_sound {strings : List Str} {spacing lineWidth : Nat}
    {r : List Column} (h : getFittingColumns strings spacing lineWidth = some r) :
    (∃ m, 0 < m ∧ r = (sliced strings m).map Column.mk) ∧
      (fitsInLine spacing r lineWidth ∨ r.length ≤ 1) := by
  unfold getFittingColumns at h
  rcases hb : buildColumns strings (min lineWidth strings.length) with _ | cols
  · rw [hb] at h
    exact absurd h (by simp)
  · rw [hb] at h
    have hr : r = fittingGo strings spacing lineWidth cols :=
      (Option.some_injective _ h).symm
    have hk : 0 < min lineWidth strings.length := by
      by_contra hk0
      have h0 : min lineWidth strings.length = 0 := by omega
      rw [h0] at hb
      unfold buildColumns at hb
      simp at hb
    have hinv := buildColumns_inv strings _ hk hb
    rw [hr]
    exact fittingGo_spec strings spacing lineWidth cols hinv

theorem cols_flatten_of_inv {strings : List Str} {r : List Column}
    (h : ∃ m, 0 < m ∧ r = (sliced strings m).map Column.mk) :
    (r.map Column.strings).flatten = strings := by
  rcases h with ⟨m, hm, hr⟩
  rw [hr, List.map_map]
  have he : Column.strings ∘ Column.mk = (id : List Str → List Str) := rfl
  rw [he, List.map_id]
  exact sliced_flatten strings m hm

theorem inv_ne_nil {strings : List Str} {r : List Column}
    (h : ∃ m, 0 < m ∧ r = (sliced strings m).map Column.mk)
    (hne : strings ≠ []) : r ≠ [] := by
  rcases h with ⟨m, hm, hr⟩
  rw [hr]
  intro hc
  exact sliced_ne_nil strings m hm hne (List.map_eq_nil.mp hc)

theorem inv_singleton {strings : List Str} {r : List Column}
    (h : ∃ m, 0 < m ∧ r = (sliced strings m).map Column.mk)
    (hne : strings ≠ []) (hlen : r.length ≤ 1) : r = [Column.mk strings] := by
  rcases h with ⟨m, hm, hr⟩
  rcases hs : sliced strings m with _ | ⟨c, cs⟩
  · exact absurd hs (sliced_ne_nil strings m hm hne)
  · match cs, hs with
    | [], hs =>
      have hc : c = strings := sliced_eq_singleton strings m hm hs
      rw [hr, hs, hc]
      rfl
    | d :: ds, hs =>
      rw [hr, hs] at hlen
      simp at hlen

theorem fits_single (strings : List Str) (spacing lineWidth : Nat)
    (hw : maxLen strings + 1 ≤ lineWidth) :
    fitsInLine spacing [Column.mk strings] lineWidth := by
  unfold fitsInLine
  simp [Column.get_width]
  omega

theorem getFittingColumns_fits {strings : List Str} {spacing lineWidth : Nat}
    {r : List Column} (h : getFittingColumns strings spacing lineWidth = some r)
    (hne : strings ≠ []) (hw : maxLen strings + 1 ≤ lineWidth) :
    r ≠ [] ∧ fitsInLine spacing r lineWidth := by
  rcases getFittingColumns_sound h with ⟨hinv, hfit | hlen⟩
  · exact ⟨inv_ne_nil hinv hne, hfit⟩
  · have hr : r = [Column.mk strings] := inv_singleton hinv hne hlen
    rw [hr]
    exact ⟨by simp, fits_single strings spacing lineWidth hw⟩

theorem Item.render_length (it : Item) : it.render.length = it.width := by
  show (it.string.take it.width ++ spaces (it.width - (it.string.take it.width).length)).length
      = it.width
  rw [List.length_append, List.length_take]
  unfold spaces
  rw [List.length_replicate]
  omega

theorem Column.rendered_length {c : Column} {s : Str} (h : s ∈ c.rendered) :
    s.length = c.get_width := by
  unfold Column.rendered Column.get_items at h
  rw [List.map_map] at h
  rcases List.mem_map.mp h with ⟨t, _, rfl⟩
  exact Item.render_length ⟨t, c.get_width⟩

theorem cell_le (c : Column) (i : Nat) : (getAt c.rendered i []).length ≤ c.get_width := by
  rcases getAt_mem_or c.rendered i [] with h | h
  · exact le_of_eq (Column.rendered_length h)
  · rw [h]
    simp

theorem iterLines_bound (columns : List Column) (spacer : Str) (lineWidth : Nat)
    (hfits : fitsInLine spacer.length columns lineWidth) :
    (∀ line ∈ iterLinesRaw columns spacer, line.length ≤ lineWidth) ∧
      (∀ line ∈ iterLines columns spacer, line.length ≤ lineWidth) := by
  have hraw : ∀ line ∈ iterLinesRaw columns spacer, line.length ≤ lineWidth := by
    intro line hline
    unfold iterLinesRaw at hline
    rcases List.mem_map.mp hline with ⟨row, hrow, rfl⟩
    unfold zipLongest at hrow
    rcases List.mem_map.mp hrow with ⟨i, _, rfl⟩
    rw [joinStr_length]
    simp only [List.map_map, List.length_map]
    unfold fitsInLine at hfits
    refine le_trans (Nat.add_le_add_right (List.sum_le_sum (fun c _ => cell_le c i)) _) ?_
    rw [Nat.mul_comm]
    exact le_trans (Nat.le_succ _) hfits
  refine ⟨hraw, ?_⟩
  intro line hline
  unfold iterLines at hline
  rcases List.mem_map.mp hline with ⟨row, hrow, rfl⟩
  have hmem : joinStr spacer row ∈ iterLinesRaw columns spacer :=
    List.mem_map.mpr ⟨row, hrow, rfl⟩
  exact le_trans (rstrip_length_le _) (hraw _ hmem)

end Anycol

namespace Pycoli

/-! Shallow embedding of `pycoli/core.py`.  Column items are modelled as
strings (the class converts items with `str` on iteration and measures the
lengths of those string forms; `str` is the identity on strings here). -/

/-- Models the `Alignment` enum (`<`, `>`, `^`). -/
inductive Alignment where
  | left
  | right
  | center
deriving DecidableEq, Repr

/-- Models `pycoli.Column`: items, optional fixed width, alignment.  A
validated fixed width is positive, so it is stored as a `Nat`. -/
structure Column where
  items : List Str
  width : Option Nat
  align : Alignment
deriving DecidableEq, Repr

/-- Models `Column.__init__`: a supplied width must be a positive integer,
otherwise `ValueError` is raised (modelled with `Except.error`). -/
def Column.init (items : List Str) (width : Option Int) (align : Alignment) :
    Except String Column :=
  match width with
  | none => .ok ⟨items, none, align⟩
  | some w =>
    if 0 < w then .ok ⟨items, some w.toNat, align⟩
    else .error "width must be a positive integer or None"

/-- Models `Column.__len__`: the fixed width if set, else the maximum
string length of the items (`0` for an empty column). -/
def Column.len (c : Column) : Nat :=
  match c.width with
  | some w => w
  | none => maxLen c.items

/-- Models `Column.template`: the alignment/width pair of the format spec
the source builds from `self.align` and `len(self)`. -/
def Column.template (c : Column) : Alignment × Nat := (c.align, c.len)

/-- Models the application of a Python format spec of the form
align-then-width (space fill): pad `s` to `width`; centering puts the extra
space on the right; an over-long value is not truncated. -/
def formatAligned (align : Alignment) (width : Nat) (s : Str) : Str :=
  match align with
  | .left => s ++ spaces (width - s.length)
  | .right => spaces (width - s.length) ++ s
  | .center =>
    spaces ((width - s.length) / 2) ++ s ++
      spaces ((width - s.length) - (width - s.length) / 2)

/-- Applying a column template to one value. -/
def formatWith (t : Alignment × Nat) (s : Str) : Str := formatAligned t.1 t.2 s

/-- A `Screen` model entry: either a `Column` or a plain iterable of
strings (wrapped into a default `Column` by `Screen.columns`). -/
def ScreenEntry := Sum Column (List Str)

/-- Models `pycoli.Screen`.  `width` stores the argument of
`Screen.__init__` (or the sampled terminal width); the iteration code never
reads it. -/
structure Screen where
  model : List ScreenEntry
  spacer : Str
  width : Int

/-- Models the `Screen.columns` property: pass `Column` entries through and
wrap any other iterable in `Column(item)` (automatic width, left aligned). -/
def Screen.columns (s : Screen) : List Column :=
  s.model.map (fun e =>
    match e with
    | .inl c => c
    | .inr items => ⟨items, none, Alignment.left⟩)

/-- Models one `template.format(*row_values)` application of
`Screen.__iter__`: each value is formatted with its column's alignment and
width, and the results are joined with the spacer (`Screen.template` joins
the per-column format specs with the spacer; the spacer is treated as
literal text, i.e. spacers containing Python format metacharacters are
outside the model). -/
def formatRow (spacer : Str) (cols : List Column) (vals : List Str) : Str :=
  joinStr spacer ((cols.zip vals).map (fun cv => formatAligned cv.1.align cv.1.len cv.2))

/-- The rows of `zip_longest(*self.columns, fillvalue="")`: iterating a
column yields the string forms of its items. -/
def Screen.rows (s : Screen) : List (List Str) :=
  zipLongest (s.columns.map Column.items) []

/-- Models `Screen.__iter__` without the final `rstrip`. -/
def Screen.linesRaw (s : Screen) : List Str :=
  if s.columns.isEmpty then []
  else s.rows.map (fun row => formatRow s.spacer s.columns row)

/-- Models `Screen.__iter__`. -/
def Screen.lines (s : Screen) : List Str :=
  if s.columns.isEmpty then []
  else s.rows.map (fun row => rstrip (formatRow s.spacer s.columns row))

/-- The width used for the fallback single column:
`col_widths[0] if col_widths else None` (an absent or empty list is falsy). -/
def fallbackWidth (colWidths : Option (List (Option Int))) : Option Int :=
  match colWidths with
  | some (w :: _) => w
  | _ => none

/-- Models the `col_objs` construction inside `arrange_columns`: one
`Column` per bucket, with width `col_widths[i] if i < len(col_widths) else
None` when fixed widths are supplied and `None` otherwise; `i` is the
position within `columns` (the `enumerate` index). -/
def initAll (colWidths : Option (List (Option Int))) :
    Nat → List (List Str) → Except String (List Column)
  | _, [] => .ok []
  | i, col :: rest =>
    match Column.init col
        (match colWidths with
         | some ws => getAt ws i none
         | none => none) Alignment.left with
    | .error e => .error e
    | .ok c =>
      match initAll colWidths (i + 1) rest with
      | .error e => .error e
      | .ok cs => .ok (c :: cs)

/-- The bucketing `columns[idx // rows].append(item)` of `arrange_columns`:
column `c` receives exactly the items with indices in
`[c*rows, (c+1)*rows)`, i.e. a contiguous slice of the input. -/
def distribute (items : List Str) (cols rows : Nat) : List (List Str) :=
  (List.range cols).map (fun c => (items.drop (c * rows)).take rows)

/-- Models the `for cols in range(n_items, 0, -1)` loop of
`arrange_columns`; the argument is the current candidate column count and
`0` is the post-loop fallback return. -/
def arrangeGo (items : List Str) (spacer : Str) (width : Int)
    (colWidths : Option (List (Option Int))) : Nat → Except String (List Column)
  | 0 =>
    (Column.init items (fallbackWidth colWidths) Alignment.left).map (fun c => [c])
  | cols + 1 =>
    match initAll colWidths 0
        (distribute items (cols + 1) (ceilDiv items.length (cols + 1))) with
    | .error e => .error e
    | .ok colObjs =>
      if (((colObjs.map Column.len).sum + spacer.length * cols : Nat) : Int) ≤ width then
        .ok colObjs
      else arrangeGo items spacer width colWidths cols

/-- Models `arrange_columns`. -/
def arrangeColumns (items : List Str) (spacer : Str) (width : Int)
    (colWidths : Option (List (Option Int))) : Except String (List Column) :=
  if items.length = 0 then .ok []
  else arrangeGo items spacer width colWidths items.length

end Pycoli

theorem map_dropLast (f : α → β) (l : List α) : (l.map f).dropLast = l.dropLast.map f := by
  induction l with
  | nil => rfl
  | cons x xs ih =>
    match xs with
    | [] => rfl
    | y :: ys =>
      simp only [List.map_cons] at ih ⊢
      rw [List.dropLast_cons_of_ne_nil (show (f y :: List.map f ys) ≠ [] by simp),
        List.dropLast_cons_of_ne_nil (show (y :: ys) ≠ ([] : List α) by simp),
        List.map_cons, ih]

theorem zip_map_self (l : List α) (g : α → β) (F : α × β → γ) :
    (l.zip (l.map g)).map F = l.map (fun c => F (c, g c)) := by
  induction l with
  | nil => rfl
  | cons x xs ih =>
    rw [List.map_cons, List.zip_cons_cons, List.map_cons, List.map_cons, ih]

namespace Pycoli

/-- Validity of externally supplied fixed widths: every entry present in
the list is either absent (`None`) or a positive integer (the `Column`
construction precondition). -/
def ValidWidths (colWidths : Option (List (Option Int))) : Prop :=
  ∀ ws, colWidths = some ws → ∀ w ∈ ws, ∀ v, w = some v → 0 < v

theorem Column.init_none (items : List Str) (align : Alignment) :
    Column.init items none align = .ok ⟨items, none, align⟩ := rfl

theorem Column.init_pos (items : List Str) (align : Alignment) {v : Int} (hv : 0 < v) :
    Column.init items (some v) align = .ok ⟨items, some v.toNat, align⟩ := by
  show (if 0 < v then Except.ok (⟨items, some v.toNat, align⟩ : Column)
      else Except.error "width must be a positive integer or None")
    = Except.ok (⟨items, some v.toNat, align⟩ : Column)
  rw [if_pos hv]

theorem Column.init_nonpos (items : List Str) (align : Alignment) {v : Int}
    (hv : ¬ 0 < v) :
    Column.init items (some v) align
      = .error "width must be a positive integer or None" := by
  show (if 0 < v then Except.ok (⟨items, some v.toNat, align⟩ : Column)
      else Except.error "width must be a positive integer or None")
    = Except.error "width must be a positive integer or None"
  rw [if_neg hv]

theorem Column.init_items {items : List Str} {w : Option Int} {align : Alignment}
    {c : Column} (h : Column.init items w align = .ok c) : c.items = items := by
  match w with
  | none =>
    rw [Column.init_none] at h
    simp only [Except.ok.injEq] at h
    rw [← h]
  | some v =>
    by_cases hv : 0 < v
    · rw [Column.init_pos items align hv] at h
      simp only [Except.ok.injEq] at h
      rw [← h]
    · rw [Column.init_nonpos items align hv] at h
      exact absurd h (by simp)

theorem Column.init_ok_of_valid (items : List Str) (align : Alignment) {w : Option Int}
    (hw : ∀ v, w = some v → 0 < v) :
    ∃ c, Column.init items w align = .ok c ∧ c.items = items := by
  match w with
  | none => exact ⟨⟨items, none, align⟩, rfl, rfl⟩
  | some v =>
    have hv : 0 < v := hw v rfl
    exact ⟨⟨items, some v.toNat, align⟩, Column.init_pos items align hv, rfl⟩

theorem initAll_nil (cw : Option (List (Option Int))) (i : Nat) :
    initAll cw i [] = .ok [] := rfl

theorem initAll_cons (cw : Option (List (Option Int))) (i : Nat) (col : List Str)
    (rest : List (List Str)) :
    initAll cw i (col :: rest) =
      match Column.init col
          (match cw with
           | some ws => getAt ws i none
           | none => none) Alignment.left with
      | .error e => .error e
      | .ok c =>
        match initAll cw (i + 1) rest with
        | .error e => .error e
        | .ok cs => .ok (c :: cs) := rfl

theorem initAll_none_eq (i : Nat) (cols : List (List Str)) :
    initAll none i cols = .ok (cols.map (fun col => ⟨col, none, Alignment.left⟩)) := by
  induction cols generalizing i with
  | nil => rfl
  | cons col rest ih =>
    rw [initAll_cons, ih (i + 1)]
    rfl

theorem initAll_ok_items {cw : Option (List (Option Int))} :
    ∀ {i : Nat} {cols : List (List Str)} {objs : List Column},
      initAll cw i cols = .ok objs → objs.map Column.items = cols := by
  intro i cols
  induction cols generalizing i with
  | nil =>
    intro objs h
    rw [initAll_nil] at h
    simp only [Except.ok.injEq] at h
    rw [← h]
    rfl
  | cons col rest ih =>
    intro objs h
    rw [initAll_cons] at h
    generalize hW : (match cw with
       | some ws => getAt ws i none
       | none => none) = W at h
    rcases hinit : Column.init col W Alignment.left with e | c
    · rw [hinit] at h
      exact absurd h (by simp)
    · rw [hinit] at h
      rcases hrest : initAll cw (i + 1) rest with e | cs
      · rw [hrest] at h
        exact absurd h (by simp)
      · rw [hrest] at h
        simp only [Except.ok.injEq] at h
        rw [← h, List.map_cons, Column.init_items hinit, ih hrest]

theorem initAll_ok_length {cw : Option (List (Option Int))} {i : Nat}
    {cols : List (List Str)} {objs : List Column}
    (h : initAll cw i cols = .ok objs) : objs.length = cols.length := by
  have hi := initAll_ok_items h
  calc objs.length = (objs.map Column.items).length := (List.length_map _ _).symm
    _ = cols.length := by rw [hi]

theorem initAll_ok_of_valid {cw : Option (List (Option Int))} (hv : ValidWidths cw) :
    ∀ (i : Nat) (cols : List (List Str)), ∃ objs, initAll cw i cols = .ok objs := by
  intro i cols
  induction cols generalizing i with
  | nil => exact ⟨[], rfl⟩
  | cons col rest ih =>
    have hw : ∀ v,
        (match cw with
         | some ws => getAt ws i none
         | none => none) = some v → 0 < v := by
      intro v hv2
      match cw, hv2 with
      | some ws, hv2 =>
        change getAt ws i none = some v at hv2
        rcases getAt_mem_or ws i none with hmem | hnone
        · exact hv ws rfl _ hmem v hv2
        · rw [hnone] at hv2
          exact absurd hv2 (by simp)
    rcases Column.init_ok_of_valid col Alignment.left hw with ⟨c, hc, _⟩
    rcases ih (i + 1) with ⟨cs, hcs⟩
    refine ⟨c :: cs, ?_⟩
    rw [initAll_cons, hc, hcs]

theorem distribute_length (items : List Str) (cols rows : Nat) :
    (distribute items cols rows).length = cols := by
  unfold distribute
  rw [List.length_map, List.length_range]

theorem range_slices_flatten (xs : List Str) (rows : Nat) :
    ∀ k : Nat,
      ((List.range k).map (fun c => (xs.drop (c * rows)).take rows)).flatten
        = xs.take (k * rows) := by
  intro k
  induction k with
  | zero => simp
  | succ k ih =>
    rw [List.range_succ, List.map_append, List.flatten_append, ih]
    simp only [List.map_cons, List.map_nil, List.flatten_cons, List.flatten_nil,
      List.append_nil]
    rw [← List.take_add, Nat.succ_mul]

theorem distribute_flatten (items : List Str) (cols rows : Nat)
    (h : items.length ≤ cols * rows) :
    (distribute items cols rows).flatten = items := by
  unfold distribute
  rw [range_slices_flatten items rows cols]
  exact List.take_of_length_le h

theorem formatAligned_length (a : Alignment) (w : Nat) {s : Str} (h : s.length ≤ w) :
    (formatAligned a w s).length = w := by
  match a with
  | .left =>
    simp only [formatAligned, spaces, List.length_append, List.length_replicate]
    omega
  | .right =>
    simp only [formatAligned, spaces, List.length_append, List.length_replicate]
    omega
  | .center =>
    simp only [formatAligned, spaces, List.length_append, List.length_replicate]
    omega

theorem Column.len_auto {c : Column} (hw : c.width = none) :
    ∀ s ∈ c.items, s.length ≤ c.len := by
  intro s hs
  unfold Column.len
  rw [hw]
  exact le_maxLen_of_mem hs

theorem screen_cell_le (c : Column) (hw : c.width = none) (i : Nat) :
    (getAt c.items i []).length ≤ c.len := by
  rcases getAt_mem_or c.items i [] with h | h
  · exact Column.len_auto hw _ h
  · rw [h]
    simp

theorem screen_columns_inl (cols : List Column) (spacer : Str) (w : Int) :
    (Screen.mk (cols.map Sum.inl) spacer w).columns = cols := by
  unfold Screen.columns
  rw [List.map_map]
  show List.map (fun c : Column => c) cols = cols
  simp

theorem formatRow_auto_length (spacer : Str) (cols : List Column) (i : Nat)
    (hauto : ∀ col ∈ cols, col.width = none) :
    (formatRow spacer cols (cols.map (fun c => getAt c.items i []))).length
      = (cols.map Column.len).sum + spacer.length * (cols.length - 1) := by
  unfold formatRow
  rw [zip_map_self, joinStr_length, List.map_map, List.length_map]
  have hpt : ∀ c ∈ cols,
      (List.length ∘ fun c => formatAligned c.align c.len (getAt c.items i [])) c
        = Column.len c := by
    intro c hcmem
    exact formatAligned_length c.align c.len (screen_cell_le c (hauto c hcmem) i)
  rw [List.map_congr_left hpt]

theorem screenLines_bound (cols : List Column) (spacer : Str) (w : Int)
    (lineWidth : Nat) (hauto : ∀ col ∈ cols, col.width = none)
    (htot : (cols.map Column.len).sum + spacer.length * (cols.length - 1) ≤ lineWidth) :
    (∀ line ∈ (Screen.mk (cols.map Sum.inl) spacer w).linesRaw, line.length ≤ lineWidth) ∧
      (∀ line ∈ (Screen.mk (cols.map Sum.inl) spacer w).lines, line.length ≤ lineWidth) := by
  have hcols : (Screen.mk (cols.map Sum.inl) spacer w).columns = cols :=
    screen_columns_inl cols spacer w
  have hrows : (Screen.mk (cols.map Sum.inl) spacer w).rows
      = zipLongest (cols.map Column.items) [] := by
    unfold Screen.rows
    rw [hcols]
  have hrowlen : ∀ row ∈ (Screen.mk (cols.map Sum.inl) spacer w).rows,
      (formatRow spacer cols row).length ≤ lineWidth := by
    intro row hrow
    rw [hrows] at hrow
    unfold zipLongest at hrow
    rcases List.mem_map.mp hrow with ⟨i, _, rfl⟩
    rw [List.map_map]
    calc (formatRow spacer cols (cols.map ((fun l => getAt l i []) ∘ Column.items))).length
        = (cols.map Column.len).sum + spacer.length * (cols.length - 1) :=
          formatRow_auto_length spacer cols i hauto
      _ ≤ lineWidth := htot
  constructor
  · intro line hline
    unfold Screen.linesRaw at hline
    rw [hcols] at hline
    by_cases hemp : cols.isEmpty
    · rw [if_pos hemp] at hline
      cases hline
    · rw [if_neg hemp] at hline
      rcases List.mem_map.mp hline with ⟨row, hrow, rfl⟩
      exact hrowlen row hrow
  · intro line hline
    unfold Screen.lines at hline
    rw [hcols] at hline
    by_cases hemp : cols.isEmpty
    · rw [if_pos hemp] at hline
      cases hline
    · rw [if_neg hemp] at hline
      rcases List.mem_map.mp hline with ⟨row, hrow, rfl⟩
      exact le_trans (rstrip_length_le _) (hrowlen row hrow)

end Pycoli

namespace Pycoli

theorem arrangeGo_zero (items : List Str) (spacer : Str) (width : Int)
    (cw : Option (List (Option Int))) :
    arrangeGo items spacer width cw 0 =
      (Column.init items (fallbackWidth cw) Alignment.left).map (fun c => [c]) := rfl

theorem arrangeGo_succ (items : List Str) (spacer : Str) (width : Int)
    (cw : Option (List (Option Int))) (cols : Nat) :
    arrangeGo items spacer width cw (cols + 1) =
      match initAll cw 0
          (distribute items (cols + 1) (ceilDiv items.length (cols + 1))) with
      | .error e => .error e
      | .ok colObjs =>
        if (((colObjs.map Column.len).sum + spacer.length * cols : Nat) : Int) ≤ width then
          .ok colObjs
        else arrangeGo items spacer width cw cols := rfl

theorem arrangeGo_zero_ok (items : List Str) (spacer : Str) (width : Int)
    (cw : Option (List (Option Int))) {c0 : Column}
    (hinit : Column.init items (fallbackWidth cw) Alignment.left = .ok c0) :
    arrangeGo items spacer width cw 0 = .ok [c0] := by
  rw [arrangeGo_zero, hinit]
  rfl

theorem arrangeGo_succ_ok (items : List Str) (spacer : Str) (width : Int)
    (cw : Option (List (Option Int))) (cols : Nat) {objs : List Column}
    (hia : initAll cw 0
      (distribute items (cols + 1) (ceilDiv items.length (cols + 1))) = .ok objs) :
    arrangeGo items spacer width cw (cols + 1) =
      if (((objs.map Column.len).sum + spacer.length * cols : Nat) : Int) ≤ width then
        .ok objs
      else arrangeGo items spacer width cw cols := by
  rw [arrangeGo_succ, hia]

theorem arrangeGo_flatten (items : List Str) (spacer : Str) (width : Int)
    (cw : Option (List (Option Int))) :
    ∀ (c : Nat) {cols : List Column}, arrangeGo items spacer width cw c = .ok cols →
      (cols.map Column.items).flatten = items := by
  intro c
  induction c with
  | zero =>
    intro cols h
    rw [arrangeGo_zero] at h
    rcases hinit : Column.init items (fallbackWidth cw) Alignment.left with e | c0
    · rw [hinit] at h
      exact absurd h (by simp [Except.map])
    · rw [hinit] at h
      simp only [Except.map, Except.ok.injEq] at h
      rw [← h]
      simp [Column.init_items hinit]
  | succ c ih =>
    intro cols h
    rcases hia : initAll cw 0
        (distribute items (c + 1) (ceilDiv items.length (c + 1))) with e | objs
    · rw [arrangeGo_succ, hia] at h
      exact absurd h (by simp)
    · rw [arrangeGo_succ_ok items spacer width cw c hia] at h
      by_cases htest :
          (((objs.map Column.len).sum + spacer.length * c : Nat) : Int) ≤ width
      · rw [if_pos htest] at h
        simp only [Except.ok.injEq] at h
        rw [← h, initAll_ok_items hia]
        refine distribute_flatten items (c + 1) _ ?_
        rw [Nat.mul_comm]
        exact le_mul_ceilDiv items.length (by omega)
      · rw [if_neg htest] at h
        exact ih h

theorem arrangeColumns_flatten {items : List Str} {spacer : Str} {width : Int}
    {cw : Option (List (Option Int))} {cols : List Column}
    (h : arrangeColumns items spacer width cw = .ok cols) :
    (cols.map Column.items).flatten = items := by
  unfold arrangeColumns at h
  by_cases hn : items.length = 0
  · rw [if_pos hn] at h
    simp only [Except.ok.injEq] at h
    rw [← h, (List.length_eq_zero.mp hn)]
    rfl
  · rw [if_neg hn] at h
    exact arrangeGo_flatten items spacer width cw items.length h

theorem fallbackWidth_valid {cw : Option (List (Option Int))} (hv : ValidWidths cw) :
    ∀ v, fallbackWidth cw = some v → 0 < v := by
  intro v hfb
  match cw, hfb with
  | none, hfb =>
    change (none : Option Int) = some v at hfb
    exact absurd hfb (by simp)
  | some [], hfb =>
    change (none : Option Int) = some v at hfb
    exact absurd hfb (by simp)
  | some (w :: ws), hfb =>
    change w = some v at hfb
    exact hv (w :: ws) rfl w (by simp) v hfb

theorem arrangeGo_ok (items : List Str) (spacer : Str) (width : Int)
    {cw : Option (List (Option Int))} (hv : ValidWidths cw) :
    ∀ c : Nat, ∃ cols, arrangeGo items spacer width cw c = .ok cols ∧ cols ≠ [] := by
  intro c
  induction c with
  | zero =>
    rcases Column.init_ok_of_valid items Alignment.left (fallbackWidth_valid hv)
      with ⟨c0, hc0, _⟩
    refine ⟨[c0], ?_, by simp⟩
    rw [arrangeGo_zero, hc0]
    rfl
  | succ c ih =>
    rcases initAll_ok_of_valid hv 0
        (distribute items (c + 1) (ceilDiv items.length (c + 1))) with ⟨objs, hia⟩
    by_cases htest :
        (((objs.map Column.len).sum + spacer.length * c : Nat) : Int) ≤ width
    · refine ⟨objs, ?_, ?_⟩
      · rw [arrangeGo_succ_ok items spacer width cw c hia, if_pos htest]
      · have hlen : objs.length = c + 1 := by
          rw [initAll_ok_length hia, distribute_length]
        intro hnil
        rw [hnil] at hlen
        simp at hlen
    · rcases ih with ⟨cols, hcols, hnil⟩
      refine ⟨cols, ?_, hnil⟩
      rw [arrangeGo_succ_ok items spacer width cw c hia, if_neg htest]
      exact hcols

theorem arrangeGo_all_unfit (items : List Str) (spacer : Str) (width : Int)
    {cw : Option (List (Option Int))} (hv : ValidWidths cw)
    (hunfit : ∀ (c : Nat) (objs : List Column), 1 ≤ c → c ≤ items.length →
      initAll cw 0 (distribute items c (ceilDiv items.length c)) = .ok objs →
      ¬ ((((objs.map Column.len).sum + spacer.length * (c - 1) : Nat) : Int) ≤ width)) :
    ∀ C : Nat, C ≤ items.length →
      arrangeGo items spacer width cw C = arrangeGo items spacer width cw 0 := by
  intro C
  induction C with
  | zero => intro _; rfl
  | succ C ih =>
    intro hC
    rcases initAll_ok_of_valid hv 0
        (distribute items (C + 1) (ceilDiv items.length (C + 1))) with ⟨objs, hia⟩
    have hneg := hunfit (C + 1) objs (by omega) hC hia
    rw [arrangeGo_succ_ok items spacer width cw C hia, if_neg (by simpa using hneg)]
    exact ih (by omega)

theorem arrangeGo_fits (items : List Str) (spacer : Str) (lineWidth : Nat)
    (hne : items ≠ []) (hw : maxLen items + 1 ≤ lineWidth) :
    ∀ c : Nat, ∃ cols,
      arrangeGo items spacer (lineWidth : Int) none (c + 1) = .ok cols ∧
      cols ≠ [] ∧ (∀ col ∈ cols, col.width = none) ∧
      (cols.map Column.len).sum + spacer.length * (cols.length - 1) ≤ lineWidth := by
  intro c
  induction c with
  | zero =>
    simp only [Nat.zero_add]
    have hd : distribute items 1 (ceilDiv items.length 1) = [items] := by
      unfold distribute
      rw [ceilDiv_by_one, show List.range 1 = [0] by decide, List.map_cons, List.map_nil,
        Nat.zero_mul, List.drop_zero, List.take_length]
    have e1 : initAll none 0 (distribute items 1 (ceilDiv items.length 1))
        = .ok [⟨items, none, Alignment.left⟩] := by
      rw [hd, initAll_none_eq]
      rfl
    have hsum : (([(⟨items, none, Alignment.left⟩ : Column)]).map Column.len).sum
        + spacer.length * 0 = maxLen items := by
      simp [Column.len]
    have htest : ((((([(⟨items, none, Alignment.left⟩ : Column)]).map Column.len).sum
        + spacer.length * 0 : Nat)) : Int) ≤ ((lineWidth : Nat) : Int) := by
      rw [hsum]
      exact Int.ofNat_le.mpr (by omega)
    refine ⟨[⟨items, none, Alignment.left⟩], ?_, by simp, ?_, ?_⟩
    · rw [arrangeGo_succ_ok items spacer (lineWidth : Int) none 0 e1, if_pos htest]
    · intro col hcol
      rcases List.mem_cons.mp hcol with h1 | h1
      · rw [h1]
      · cases h1
    · simp only [List.map_cons, List.map_nil, List.sum_cons, List.sum_nil,
        List.length_cons, List.length_nil]
      have hc : Column.len ⟨items, none, Alignment.left⟩ = maxLen items := rfl
      rw [hc]
      omega
  | succ c ih =>
    rcases ih with ⟨cols0, hcols0, hne0, hauto0, htot0⟩
    have hia : initAll none 0
        (distribute items (c + 1 + 1) (ceilDiv items.length (c + 1 + 1)))
        = .ok ((distribute items (c + 1 + 1) (ceilDiv items.length (c + 1 + 1))).map
            (fun col => ⟨col, none, Alignment.left⟩)) := initAll_none_eq 0 _
    by_cases htest :
        (((((distribute items (c + 1 + 1) (ceilDiv items.length (c + 1 + 1))).map
              (fun col => (⟨col, none, Alignment.left⟩ : Column))).map Column.len).sum
          + spacer.length * (c + 1) : Nat) : Int) ≤ ((lineWidth : Nat) : Int)
    · refine ⟨(distribute items (c + 1 + 1) (ceilDiv items.length (c + 1 + 1))).map
          (fun col => ⟨col, none, Alignment.left⟩), ?_, ?_, ?_, ?_⟩
      · rw [arrangeGo_succ_ok items spacer (lineWidth : Int) none (c + 1) hia, if_pos htest]
      · have hlen : ((distribute items (c + 1 + 1)
            (ceilDiv items.length (c + 1 + 1))).map
              (fun col => (⟨col, none, Alignment.left⟩ : Column))).length = c + 1 + 1 := by
          rw [List.length_map, distribute_length]
        intro hnil
        rw [hnil] at hlen
        simp at hlen
      · intro col hcol
        rcases List.mem_map.mp hcol with ⟨d, _, rfl⟩
        rfl
      · have hlen : ((distribute items (c + 1 + 1)
            (ceilDiv items.length (c + 1 + 1))).map
              (fun col => (⟨col, none, Alignment.left⟩ : Column))).length = c + 1 + 1 := by
          rw [List.length_map, distribute_length]
        rw [hlen, show c + 1 + 1 - 1 = c + 1 from rfl]
        exact Int.ofNat_le.mp htest
    · refine ⟨cols0, ?_, hne0, hauto0, htot0⟩
      rw [arrangeGo_succ_ok items spacer (lineWidth : Int) none (c + 1) hia, if_neg htest]
      exact hcols0

end Pycoli

/-!  The claims. -/

/-- C1: For every non-empty list of items and every `max_width` at least the
longest single item's length plus one, both layout solvers
(`ColumnCalculator.get_fitting_columns` and `arrange_columns`) return at
least one column, and every rendered output line — before the trailing
whitespace trim, hence also after it — has length at most `max_width`. -/
theorem claim1_fitting_layout_bounded (strings : List Str) (spacer : Str)
    (lineWidth : Nat) (hne : strings ≠ []) (hw : maxLen strings + 1 ≤ lineWidth) :
    (∃ cols, Anycol.getFittingColumns strings spacer.length lineWidth = some cols ∧
      cols ≠ [] ∧
      (∀ line ∈ Anycol.iterLinesRaw cols spacer, line.length ≤ lineWidth) ∧
      (∀ line ∈ Anycol.iterLines cols spacer, line.length ≤ lineWidth)) ∧
    (∃ cols, Pycoli.arrangeColumns strings spacer (lineWidth : Int) none = .ok cols ∧
      cols ≠ [] ∧
      ∀ w : Int,
        (∀ line ∈ (Pycoli.Screen.mk (cols.map Sum.inl) spacer w).linesRaw,
          line.length ≤ lineWidth) ∧
        (∀ line ∈ (Pycoli.Screen.mk (cols.map Sum.inl) spacer w).lines,
          line.length ≤ lineWidth)) := by
  constructor
  · have hw0 : 0 < lineWidth := by omega
    rcases Anycol.getFittingColumns_exists strings spacer.length lineWidth hne hw0
      with ⟨r, hr⟩
    rcases Anycol.getFittingColumns_fits hr hne hw with ⟨hnil, hfits⟩
    rcases Anycol.iterLines_bound r spacer lineWidth hfits with ⟨h1, h2⟩
    exact ⟨r, hr, hnil, h1, h2⟩
  · have hlen0 : strings.length ≠ 0 := fun h => hne (List.length_eq_zero.mp h)
    obtain ⟨m, hm⟩ : ∃ m, strings.length = m + 1 := by
      have := List.length_pos.mpr hne
      exact ⟨strings.length - 1, by omega⟩
    rcases Pycoli.arrangeGo_fits strings spacer lineWidth hne hw m
      with ⟨cols, hgo, hnil, hauto, htot⟩
    have harr : Pycoli.arrangeColumns strings spacer (lineWidth : Int) none = .ok cols := by
      unfold Pycoli.arrangeColumns
      rw [if_neg hlen0, hm]
      exact hgo
    refine ⟨cols, harr, hnil, ?_⟩
    intro w
    exact Pycoli.screenLines_bound cols spacer w lineWidth hauto htot

theorem claim1_witness :
    ([strOf "a", strOf "bb"] ≠ ([] : List Str)) ∧
    (maxLen [strOf "a", strOf "bb"] + 1 ≤ 10) ∧
    ((∃ cols, Anycol.getFittingColumns [strOf "a", strOf "bb"] (strOf "  ").length 10
        = some cols ∧ cols ≠ [] ∧
      (∀ line ∈ Anycol.iterLinesRaw cols (strOf "  "), line.length ≤ 10) ∧
      (∀ line ∈ Anycol.iterLines cols (strOf "  "), line.length ≤ 10)) ∧
    (∃ cols, Pycoli.arrangeColumns [strOf "a", strOf "bb"] (strOf "  ") ((10 : Nat) : Int)
        none = .ok cols ∧ cols ≠ [] ∧
      ∀ w : Int,
        (∀ line ∈ (Pycoli.Screen.mk (cols.map Sum.inl) (strOf "  ") w).linesRaw,
          line.length ≤ 10) ∧
        (∀ line ∈ (Pycoli.Screen.mk (cols.map Sum.inl) (strOf "  ") w).lines,
          line.length ≤ 10))) :=
  ⟨by decide, by decide,
   claim1_fitting_layout_bounded [strOf "a", strOf "bb"] (strOf "  ") 10
     (by decide) (by decide)⟩

/-- C2: concatenating, in column order, the item sequences of the columns
returned by either layout solver reproduces the original input exactly. -/
theorem claim2_column_major_invariant :
    (∀ (strings : List Str) (spacing lineWidth : Nat) (cols : List Anycol.Column),
      Anycol.getFittingColumns strings spacing lineWidth = some cols →
      (cols.map Anycol.Column.strings).flatten = strings) ∧
    (∀ (items : List Str) (spacer : Str) (width : Int)
        (cw : Option (List (Option Int))) (cols : List Pycoli.Column),
      Pycoli.arrangeColumns items spacer width cw = .ok cols →
      (cols.map Pycoli.Column.items).flatten = items) := by
  constructor
  · intro strings spacing lineWidth cols h
    exact Anycol.cols_flatten_of_inv (Anycol.getFittingColumns_sound h).1
  · intro items spacer width cw cols h
    exact Pycoli.arrangeColumns_flatten h

theorem getFitting_eval_singleton :
    Anycol.getFittingColumns [strOf "a"] 2 10 = some [Anycol.Column.mk [strOf "a"]] := by
  have hs : sliced [strOf "a"] 1 = [[strOf "a"]] := by
    rw [sliced_cons_eq [strOf "a"] 1 (by omega) (by simp)]
    rw [show List.drop 1 [strOf "a"] = ([] : List Str) from rfl, sliced_nil]
    rfl
  unfold Anycol.getFittingColumns
  rw [Anycol.buildColumns_pos [strOf "a"] (min 10 [strOf "a"].length) (by decide)]
  show some (Anycol.fittingGo [strOf "a"] 2 10
      ((sliced [strOf "a"] (ceilDiv [strOf "a"].length (min 10 [strOf "a"].length))).map
        Anycol.Column.mk))
    = some [Anycol.Column.mk [strOf "a"]]
  rw [show ceilDiv [strOf "a"].length (min 10 [strOf "a"].length) = 1 by decide, hs]
  rw [Anycol.fittingGo_exit (by decide)]
  rfl

theorem claim2_witness :
    Anycol.getFittingColumns [strOf "a"] 2 10 = some [Anycol.Column.mk [strOf "a"]] ∧
    ([Anycol.Column.mk [strOf "a"]].map Anycol.Column.strings).flatten = [strOf "a"] ∧
    Pycoli.arrangeColumns [strOf "a", strOf "bb"] (strOf "  ") 10 none
      = .ok [Pycoli.Column.mk [strOf "a"] none .left,
             Pycoli.Column.mk [strOf "bb"] none .left] ∧
    (([Pycoli.Column.mk [strOf "a"] none .left,
       Pycoli.Column.mk [strOf "bb"] none .left]).map Pycoli.Column.items).flatten
      = [strOf "a", strOf "bb"] :=
  ⟨getFitting_eval_singleton,
   claim2_column_major_invariant.1 [strOf "a"] 2 10 _ getFitting_eval_singleton,
   by rfl,
   claim2_column_major_invariant.2 [strOf "a", strOf "bb"] (strOf "  ") 10 none _
     (by rfl)⟩

/-- C3: on the empty item list, `anycol`'s solver fails (the model returns
`none`, standing for the `ZeroDivisionError` of `ceil(0 / 0)` in
`build_columns(min(line_width, 0))`), while `pycoli`'s `arrange_columns`
returns the empty layout and both renderers produce zero output lines.
The spec's no-error guarantee therefore holds for `pycoli` but is violated
by `anycol`'s solver. -/
theorem claim3_empty_input (spacing lineWidth : Nat) (spacer : Str) (w : Int) :
    Anycol.getFittingColumns [] spacing lineWidth = none ∧
    Pycoli.arrangeColumns [] spacer w none = .ok [] ∧
    Anycol.iterLines [] spacer = [] ∧
    Pycoli.Screen.lines ⟨[], spacer, w⟩ = [] := by
  refine ⟨?_, rfl, rfl, rfl⟩
  unfold Anycol.getFittingColumns
  rw [show min lineWidth (List.length ([] : List Str)) = 0 by simp]
  rfl

/-- C4: a key-value (mapping) input always yields exactly two columns — the
string forms of the keys, then of the values, in key iteration order — and
the result never depends on the spacing or the width budget (the fitting
algorithm is bypassed). -/
theorem claim4_mapping_two_columns (mapping : List (Str × Str))
    (spacing lineWidth : Nat) :
    (Anycol.getMappingColumns mapping spacing lineWidth).length = 2 ∧
    (Anycol.getMappingColumns mapping spacing lineWidth).map Anycol.Column.strings
      = [mapping.map Prod.fst, mapping.map Prod.snd] ∧
    (∀ spacing2 lineWidth2 : Nat,
      Anycol.getMappingColumns mapping spacing lineWidth
        = Anycol.getMappingColumns mapping spacing2 lineWidth2) :=
  ⟨rfl, rfl, fun _ _ => rfl⟩

/-- C5: constructing a `Column` with a supplied fixed width succeeds exactly
when no width is supplied or the supplied integer is positive; otherwise the
construction raises (`Except.error`). -/
theorem claim5_width_validation (items : List Str) (w : Option Int)
    (align : Pycoli.Alignment) :
    (∃ c, Pycoli.Column.init items w align = .ok c) ↔
      (w = none ∨ ∃ v : Int, 0 < v ∧ w = some v) := by
  constructor
  · rintro ⟨c, hc⟩
    match w with
    | none => exact Or.inl rfl
    | some v =>
      by_cases hv : 0 < v
      · exact Or.inr ⟨v, hv, rfl⟩
      · rw [Pycoli.Column.init_nonpos items align hv] at hc
        exact absurd hc (by simp)
  · rintro (rfl | ⟨v, hv, rfl⟩)
    · exact ⟨_, Pycoli.Column.init_none items align⟩
    · exact ⟨_, Pycoli.Column.init_pos items align hv⟩

theorem claim5_witness :
    (∃ c, Pycoli.Column.init [] (some 3) .left = .ok c) ∧
    ¬ (∃ c, Pycoli.Column.init [] (some 0) .left = .ok c) := by
  constructor
  · exact (claim5_width_validation [] (some 3) .left).mpr (Or.inr ⟨3, by omega, rfl⟩)
  · intro h
    rcases (claim5_width_validation [] (some 0) .left).mp h with h0 | ⟨v, hv, he⟩
    · exact absurd h0 (by simp)
    · have hv0 : (0 : Int) = v := Option.some_injective _ he
      omega

/-- C6: a column's effective width is the fixed width when one is set, and
otherwise the maximum string length over the contained items — an upper
bound on every item's length, attained by some item when there is one, and
`0` for an empty column — in both implementations. -/
theorem claim6_effective_width :
    (∀ c : Anycol.Column,
      (c.strings = [] → c.get_width = 0) ∧
      (∀ s ∈ c.strings, s.length ≤ c.get_width) ∧
      (c.strings ≠ [] → ∃ s ∈ c.strings, c.get_width = s.length)) ∧
    (∀ c : Pycoli.Column,
      (∀ w, c.width = some w → c.len = w) ∧
      (c.width = none →
        (c.items = [] → c.len = 0) ∧
        (∀ s ∈ c.items, s.length ≤ c.len) ∧
        (c.items ≠ [] → ∃ s ∈ c.items, c.len = s.length))) := by
  have maxLen_spec : ∀ l : List Str,
      (l = [] → maxLen l = 0) ∧ (∀ s ∈ l, s.length ≤ maxLen l) ∧
        (l ≠ [] → ∃ s ∈ l, maxLen l = s.length) := by
    intro l
    refine ⟨?_, fun s hs => le_maxLen_of_mem hs, ?_⟩
    · rintro rfl
      rfl
    · intro hne
      have hmm : maxLen l ∈ l.map List.length := maxNat_mem (by simpa using hne)
      rcases List.mem_map.mp hmm with ⟨s, hs, he⟩
      exact ⟨s, hs, he.symm⟩
  constructor
  · intro c
    exact maxLen_spec c.strings
  · intro c
    constructor
    · intro w hw
      unfold Pycoli.Column.len
      rw [hw]
    · intro hw
      have hlen : c.len = maxLen c.items := by
        unfold Pycoli.Column.len
        rw [hw]
      rw [hlen]
      exact maxLen_spec c.items

theorem claim6_witness :
    (Pycoli.Column.mk [strOf "hi"] (some 7) .left).len = 7 ∧
    ((Anycol.Column.mk [strOf "a", strOf "bbb"]).strings ≠ []) ∧
    (∃ s ∈ (Anycol.Column.mk [strOf "a", strOf "bbb"]).strings,
      (Anycol.Column.mk [strOf "a", strOf "bbb"]).get_width = s.length) := by
  refine ⟨(claim6_effective_width.2 _).1 7 rfl, by decide, ?_⟩
  exact (claim6_effective_width.1 (Anycol.Column.mk [strOf "a", strOf "bbb"])).2.2
    (by decide)

/-- C7: the string "hi" in a column of width 5 renders as "   hi" under
right alignment, "hi   " under left alignment, and " hi  " under center
alignment — the extra pad character of the odd padding goes to the right. -/
theorem claim7_alignment_examples :
    Pycoli.formatWith (Pycoli.Column.template ⟨[strOf "hi"], some 5, .right⟩)
        (strOf "hi") = strOf "   hi" ∧
    Pycoli.formatWith (Pycoli.Column.template ⟨[strOf "hi"], some 5, .left⟩)
        (strOf "hi") = strOf "hi   " ∧
    Pycoli.formatWith (Pycoli.Column.template ⟨[strOf "hi"], some 5, .center⟩)
        (strOf "hi") = strOf " hi  " := by
  decide

/-- C8 counterexample: at target width `0` the wrapping of `"a"` yields no
chunks at all (`sliced(s, 0)` is empty), so the concatenation of the chunks
is empty and does not reproduce the value. -/
theorem claim8_counterexample :
    ¬ ((((Anycol.Item.mk (strOf "a") 0).get_wrapped).map Anycol.Item.string).flatten
        = strOf "a") := by
  have h : (Anycol.Item.mk (strOf "a") 0).get_wrapped = [] := by
    show (sliced (strOf "a") 0).map (fun c => Anycol.Item.mk c 0) = []
    rw [sliced_zero]
    rfl
  rw [h]
  decide

/-- C8 (amended: for positive target width): wrapping decomposes the value
into chunks that concatenate back to the original, every chunk is at most
`width` characters and carries the target width, and every chunk except
possibly the last is exactly `width` characters. -/
theorem claim8_wrapping (it : Anycol.Item) (hw : 0 < it.width) :
    ((it.get_wrapped.map Anycol.Item.string).flatten = it.string) ∧
    (∀ ch ∈ it.get_wrapped, ch.width = it.width ∧ ch.string.length ≤ it.width) ∧
    (∀ ch ∈ it.get_wrapped.dropLast, ch.string.length = it.width) := by
  unfold Anycol.Item.get_wrapped
  refine ⟨?_, ?_, ?_⟩
  · rw [List.map_map]
    rw [show (Anycol.Item.string ∘ fun c => Anycol.Item.mk c it.width)
        = (fun c : Str => c) from rfl]
    rw [show (sliced it.string it.width).map (fun c : Str => c)
        = sliced it.string it.width from List.map_id' _]
    exact sliced_flatten it.string it.width hw
  · intro ch hch
    rcases List.mem_map.mp hch with ⟨c, hc, rfl⟩
    exact ⟨rfl, sliced_chunk_le it.string it.width c hc⟩
  · intro ch hch
    rw [map_dropLast] at hch
    rcases List.mem_map.mp hch with ⟨c, hc, rfl⟩
    exact sliced_dropLast_full it.string it.width c hc

theorem sliced_strOf_abcdef :
    sliced (strOf "abcdef") 2 = [strOf "ab", strOf "cd", strOf "ef"] := by
  rw [sliced_cons_eq (strOf "abcdef") 2 (by omega) (by decide)]
  show strOf "ab" :: sliced (strOf "cdef") 2 = _
  rw [sliced_cons_eq (strOf "cdef") 2 (by omega) (by decide)]
  show strOf "ab" :: strOf "cd" :: sliced (strOf "ef") 2 = _
  rw [sliced_cons_eq (strOf "ef") 2 (by omega) (by decide)]
  show strOf "ab" :: strOf "cd" :: strOf "ef" :: sliced ([] : List Char) 2 = _
  rw [sliced_nil]

theorem claim8_witness :
    (0 < (Anycol.Item.mk (strOf "abcdef") 2).width) ∧
    ((Anycol.Item.mk (strOf "abcdef") 2).get_wrapped
      = [Anycol.Item.mk (strOf "ab") 2, Anycol.Item.mk (strOf "cd") 2,
         Anycol.Item.mk (strOf "ef") 2]) ∧
    (((Anycol.Item.mk (strOf "abcdef") 2).get_wrapped.map Anycol.Item.string).flatten
        = strOf "abcdef") ∧
    (∀ ch ∈ (Anycol.Item.mk (strOf "abcdef") 2).get_wrapped.dropLast,
      ch.string.length = 2) := by
  have heval : (Anycol.Item.mk (strOf "abcdef") 2).get_wrapped
      = [Anycol.Item.mk (strOf "ab") 2, Anycol.Item.mk (strOf "cd") 2,
         Anycol.Item.mk (strOf "ef") 2] := by
    show (sliced (strOf "abcdef") 2).map (fun c => Anycol.Item.mk c 2) = _
    rw [sliced_strOf_abcdef]
    rfl
  exact ⟨by decide, heval,
    (claim8_wrapping (Anycol.Item.mk (strOf "abcdef") 2) (by decide)).1,
    (claim8_wrapping (Anycol.Item.mk (strOf "abcdef") 2) (by decide)).2.2⟩

/-- C9: a `Screen`'s rendered lines never depend on its stored width: two
screens over the same model and spacer but different widths produce exactly
the same line sequence (the width field is never consulted). -/
theorem claim9_width_independent (model : List Pycoli.ScreenEntry) (spacer : Str)
    (w1 w2 : Int) :
    Pycoli.Screen.lines ⟨model, spacer, w1⟩ = Pycoli.Screen.lines ⟨model, spacer, w2⟩ :=
  rfl

/-- C10: for every non-empty items list and every width — however small —
`arrange_columns` never raises (given well-formed fixed widths) and returns
a non-empty column list; when no candidate column count passes the fit
test it falls back to the single column of all items with the first fixed
width (or automatic width); the concrete instance shows a fallback line
exceeding the requested width `1`. -/
theorem claim10_arrange_total (items : List Str) (spacer : Str) (width : Int)
    (cw : Option (List (Option Int)))
    (hne : items ≠ []) (hv : Pycoli.ValidWidths cw) :
    (∃ cols, Pycoli.arrangeColumns items spacer width cw = .ok cols ∧ cols ≠ []) ∧
    ((∀ (c : Nat) (objs : List Pycoli.Column), 1 ≤ c → c ≤ items.length →
        Pycoli.initAll cw 0 (Pycoli.distribute items c (ceilDiv items.length c))
          = .ok objs →
        ¬ ((((objs.map Pycoli.Column.len).sum + spacer.length * (c - 1) : Nat) : Int)
          ≤ width)) →
      ∃ c0, Pycoli.Column.init items (Pycoli.fallbackWidth cw) Pycoli.Alignment.left
          = .ok c0 ∧
        Pycoli.arrangeColumns items spacer width cw = .ok [c0]) ∧
    (Pycoli.arrangeColumns [strOf "abc"] (strOf "  ") 1 none
        = .ok [Pycoli.Column.mk [strOf "abc"] none .left] ∧
      Pycoli.Screen.lines
          ⟨[Sum.inl (Pycoli.Column.mk [strOf "abc"] none .left)], strOf "  ", 1⟩
        = [strOf "abc"] ∧
      1 < (strOf "abc").length) := by
  have hlen0 : items.length ≠ 0 := fun h => hne (List.length_eq_zero.mp h)
  refine ⟨?_, ?_, by rfl, by rfl, by decide⟩
  · rcases Pycoli.arrangeGo_ok items spacer width hv items.length with ⟨cols, hgo, hnil⟩
    refine ⟨cols, ?_, hnil⟩
    unfold Pycoli.arrangeColumns
    rw [if_neg hlen0]
    exact hgo
  · intro hunfit
    rcases Pycoli.Column.init_ok_of_valid items Pycoli.Alignment.left
        (Pycoli.fallbackWidth_valid hv) with ⟨c0, hc0, _⟩
    refine ⟨c0, hc0, ?_⟩
    unfold Pycoli.arrangeColumns
    rw [if_neg hlen0,
      Pycoli.arrangeGo_all_unfit items spacer width hv hunfit items.length (le_refl _)]
    exact Pycoli.arrangeGo_zero_ok items spacer width cw hc0

theorem validWidths_none : Pycoli.ValidWidths none := by
  intro ws h
  cases h

theorem claim10_witness :
    ([strOf "x"] ≠ ([] : List Str)) ∧
    Pycoli.ValidWidths none ∧
    ((∃ cols, Pycoli.arrangeColumns [strOf "x"] (strOf "  ") 80 none = .ok cols ∧
        cols ≠ []) ∧
      ((∀ (c : Nat) (objs : List Pycoli.Column), 1 ≤ c → c ≤ [strOf "x"].length →
          Pycoli.initAll none 0
            (Pycoli.distribute [strOf "x"] c (ceilDiv [strOf "x"].length c)) = .ok objs →
          ¬ ((((objs.map Pycoli.Column.len).sum + (strOf "  ").length * (c - 1) : Nat)
              : Int) ≤ 80)) →
        ∃ c0, Pycoli.Column.init [strOf "x"] (Pycoli.fallbackWidth none)
            Pycoli.Alignment.left = .ok c0 ∧
          Pycoli.arrangeColumns [strOf "x"] (strOf "  ") 80 none = .ok [c0]) ∧
      (Pycoli.arrangeColumns [strOf "abc"] (strOf "  ") 1 none
          = .ok [Pycoli.Column.mk [strOf "abc"] none .left] ∧
        Pycoli.Screen.lines
            ⟨[Sum.inl (Pycoli.Column.mk [strOf "abc"] none .left)], strOf "  ", 1⟩
          = [strOf "abc"] ∧
        1 < (strOf "abc").length)) :=
  ⟨by decide, validWidths_none,
   claim10_arrange_total [strOf "x"] (strOf "  ") 80 none (by decide) validWidths_none⟩
